import Mathlib

/-!
Verification development for the baby-names character-level neural
language model notebook (`baby_names_neural_net.ipynb`).

The development shallowly embeds the notebook's code:

* the vocabulary cell (`chars`, `stoi`, `itos`);
* the example-building cell (the loop filling `X` and `Y`);
* the `MLPLM` module (`embedding`, flatten, `fc = Linear ∘ ReLU ∘ Linear`),
  with real-valued tensors modelled over `ℚ`;
* the training loop `fit` (the calls into the autograd/optimizer library
  are abstracted as explicit function parameters, since they are external
  library code, not code of this repository);
* the name-generation loop, with the composite
  `softmax`-then-`torch.multinomial` draw abstracted as an oracle
  `draw : List Nat → Nat` giving the code sampled at each step, so that
  theorems quantify over every possible run of the sampler.

Python dictionary lookups that can raise `KeyError` are modelled with
`Option`; a loop that may fail to terminate is modelled with explicit fuel
and a result constructor recording that it is still running.
-/

/-! ## Vocabulary

Notebook cell:
```
chars = set(''.join(words))
chars = sorted(list(chars))
stoi = \x7bchar: idx for idx, char in enumerate(chars, start=1)\x7d
itos = \x7bidx: char for idx, char in enumerate(chars, start=1)\x7d
stoi['.'] = 0
itos[0] = '.'
```
-/

/-- The sorted list of distinct characters of the corpus:
`sorted(list(set(''.join(words))))`.  `dedup` keeps one copy of each
character and `insertionSort` orders them by code point, exactly the
ascending order Python's `sorted` produces on distinct characters. -/
def charsOf (words : List String) : List Char :=
  List.insertionSort (fun a b => a ≤ b) ((words.flatMap (fun w => w.toList)).dedup)

/-- The dictionary `stoi` as a partial function: `'.'` is overridden to
code `0`; a corpus character at (0-based) position `i` of `chars` receives
code `i + 1`; any other character raises `KeyError`, i.e. `none`. -/
def stoi (words : List String) (c : Char) : Option Nat :=
  if c = '.' then some 0
  else if c ∈ charsOf words then some ((charsOf words).indexOf c + 1)
  else none

/-- The dictionary `itos` as a partial function on integer keys (Python
keys may be negative): key `0` maps to `'.'`, key `k` with
`1 ≤ k ≤ len(chars)` maps to `chars[k-1]`, any other key raises
`KeyError`, i.e. `none`. -/
def itos (words : List String) (k : Int) : Option Char :=
  if k = 0 then some '.'
  else if 1 ≤ k ∧ k ≤ (charsOf words).length then (charsOf words).get? (k - 1).toNat
  else none

/-- The vocabulary size `V = len(itos)`: the distinct corpus characters
plus the boundary symbol at code `0`. -/
def vocabSize (words : List String) : Nat :=
  (charsOf words).length + 1

/-! ## Example builder

Notebook cell:
```
ctx_len = 3
X, Y = [], []
for word in words:
    ctx = [0] * ctx_len
    word = word + '.'
    for char in word:
        char_idx = stoi[char]
        X.append(ctx)
        Y.append(char_idx)
        ctx = ctx[1:] + [char_idx]
X = torch.tensor(X); Y = torch.tensor(Y)
```
The parallel lists `X`, `Y` are embedded as one list of
(context, target) pairs. -/

/-- The inner loop over the characters of one (boundary-terminated) name:
starting from context `ctx`, for each character emit
`(current context, stoi[char])` and slide the context left by one,
appending the new code.  `st` is the `stoi` lookup; `none` models a
`KeyError`. -/
def buildName (st : Char → Option Nat) : List Nat → List Char → Option (List (List Nat × Nat))
  | _, [] => some []
  | ctx, c :: cs => do
      let k ← st c
      let rest ← buildName st (ctx.drop 1 ++ [k]) cs
      pure ((ctx, k) :: rest)

/-- The outer loop over the corpus: each name is extended with the
trailing `'.'` and processed from the all-zero context. -/
def buildAll (st : Char → Option Nat) (C : Nat) : List String → Option (List (List Nat × Nat))
  | [] => some []
  | w :: ws => do
      let l ← buildName st (List.replicate C 0) (w.toList ++ ['.'])
      let rest ← buildAll st C ws
      pure (l ++ rest)

/-- The whole example-building cell: the vocabulary is the one built from
the same corpus `words`. -/
def buildExamples (words : List String) (C : Nat) : Option (List (List Nat × Nat)) :=
  buildAll (stoi words) C words

/-! ## Language model

Notebook cell:
```
class MLPLM(nn.Module):
    def __init__(self, vocab_size=27, emb_dim=2, ctx_len=3):
        self.embedding = nn.Embedding(vocab_size, emb_dim)
        self.fc = nn.Sequential(nn.Linear(emb_dim*ctx_len, 200), nn.ReLU(),
                                nn.Linear(200, vocab_size))
    def forward(self, x):
        x = self.embedding(x)
        x = x.view(x.size(0), -1)
        return self.fc(x)
```
Real-valued parameters are modelled over `ℚ`; a weight matrix is a list
of rows.  `nn.Linear(n, m)` stores a weight of shape `(m, n)` and
computes `W x + b` row-wise. -/

/-- Dot product of two rational vectors. -/
def dot (a b : List ℚ) : ℚ :=
  (List.zipWith (fun x y => x * y) a b).sum

/-- `nn.Linear`: `y_j = dot(W_j, x) + b_j`, one output per weight row. -/
def linear (W : List (List ℚ)) (b : List ℚ) (x : List ℚ) : List ℚ :=
  List.zipWith (fun row bi => dot row x + bi) W b

/-- `nn.ReLU`: elementwise `max(0, x)`. -/
def relu (x : List ℚ) : List ℚ :=
  x.map (fun v => max 0 v)

/-- The parameters of the `MLPLM` module: embedding table (`V × D`),
first linear layer (`H × (C·D)` weight and `H` bias), second linear
layer (`V × H` weight and `V` bias). -/
structure MLPLM where
  embedding : List (List ℚ)
  W1 : List (List ℚ)
  b1 : List ℚ
  W2 : List (List ℚ)
  b2 : List ℚ

/-- One row of `MLPLM.forward`: look up each code of the context in the
embedding table (`nn.Embedding` raises on an out-of-range index, modelled
by `Option`), flatten the `C × D` block row-major (`x.view(x.size(0), -1)`
concatenates the `C` embedding vectors in context order), then apply
`fc = Linear ∘ ReLU ∘ Linear`.  No softmax or other normalization
appears. -/
def MLPLM.forward (m : MLPLM) (ctx : List Nat) : Option (List ℚ) := do
  let embs ← ctx.mapM (fun i => m.embedding.get? i)
  let flat := embs.flatten
  pure (linear m.W2 m.b2 (relu (linear m.W1 m.b1 flat)))

/-- Batched `forward`: the tensor version applies the same per-row
computation to each of the `N` contexts. -/
def forwardBatch (m : MLPLM) (ctxs : List (List Nat)) : Option (List (List ℚ)) :=
  ctxs.mapM (fun ctx => m.forward ctx)

/-- Well-formedness of the parameters for sizes `V`, `D`, `C`, `H`:
the shapes `nn.Embedding(V, D)`, `nn.Linear(C*D, H)`, `nn.Linear(H, V)`
produce. -/
def MLPLM.WF (m : MLPLM) (V D C H : Nat) : Prop :=
  m.embedding.length = V ∧ (∀ r ∈ m.embedding, r.length = D) ∧
  m.W1.length = H ∧ (∀ r ∈ m.W1, r.length = C * D) ∧ m.b1.length = H ∧
  m.W2.length = V ∧ (∀ r ∈ m.W2, r.length = H) ∧ m.b2.length = V

/-- Modelled from the spec: look up each of the `C` codes in the embedding
table producing `C` vectors of dimension `D` (spec §4.3). -/
def lookupRow (m : MLPLM) (k : Nat) : List ℚ :=
  m.embedding.getD k []

/-- Modelled from the spec: concatenate the looked-up vectors into one
vector of dimension `C·D`, order-preservingly (spec §4.3). -/
def concatEmbeds (m : MLPLM) (ctx : List Nat) : List ℚ :=
  (ctx.map (fun k => lookupRow m k)).flatten

/-- Modelled from the spec: a linear transform plus bias written
coordinatewise, output `j` being `dot(W_j, x) + b_j` (spec §4.3). -/
def affine (W : List (List ℚ)) (b : List ℚ) (x : List ℚ) : List ℚ :=
  (List.range W.length).map (fun j => dot (W.getD j []) x + b.getD j 0)

/-- Modelled from the spec's wording of §4.3: lookup, order-preserving
concatenation, first linear transform + bias, elementwise `max(0, ·)`,
second linear transform + bias, and nothing else (no normalization). -/
def forwardSpec (m : MLPLM) (ctx : List Nat) : List ℚ :=
  affine m.W2 m.b2 ((affine m.W1 m.b1 (concatEmbeds m ctx)).map (fun v => max 0 v))

/-- A concrete well-formed model with `V = 3`, `D = 2`, `C = 2`, `H = 2`,
used to evaluate the forward contract at a concrete input. -/
def tinyModel : MLPLM :=
  ⟨[[1, 0], [0, 1], [1, 1]],
   [[1, 2, 3, 4], [5, 6, 7, 8]], [1, 2],
   [[1, 0], [0, 1], [1, 1]], [1, 2, 3]⟩

/-! ## Trainer

Notebook cell:
```
def fit(model, X, Y, optimizer, loss_fn, epochs=200):
    history = \x7b"train_loss": []\x7d
    for epoch in range(epochs):
        logits = model(X)
        loss = loss_fn(logits, Y)
        optimizer.zero_grad()
        loss.backward()
        optimizer.step()
        train_loss = loss.item()
        history["train_loss"].append(train_loss)
        if epoch % (epochs // 10) == 0 or epoch == epochs - 1:
            print(f"Epoch ...")
    return history
```
The torch library calls are abstracted: `lossOf p` is
`loss_fn(model(X), Y)` evaluated at parameters `p` on the entire example
set, `gradOf p` its autograd gradient, `gadd`/`gzero` the gradient
accumulation used by `backward` and the reset done by `zero_grad`, and
`stepFn` the optimizer update reading the stored gradients.  Note
`epoch % (epochs // 10)` raises `ZeroDivisionError` whenever
`1 ≤ epochs ≤ 9`, because then `epochs // 10 == 0`; this exception is
modelled by `fit` returning `none`. -/

/-- The abstracted torch facilities used by `fit`. -/
structure Torch (θ σ : Type) where
  lossOf : θ → ℚ
  gradOf : θ → θ
  gadd : θ → θ → θ
  gzero : θ
  stepFn : σ → θ → θ → σ × θ

/-- The mutable training state: model parameters, the `.grad` buffers,
and the optimizer's internal state. -/
structure TrainState (θ σ : Type) where
  params : θ
  grads : θ
  opt : σ

/-- One epoch of `fit`: compute the full-batch loss at the current
parameters, `zero_grad`, `backward` (accumulate the fresh gradient into
the zeroed buffers), `step`, and record `loss.item()`. -/
def fitStep {θ σ : Type} (T : Torch θ σ) (s : TrainState θ σ) : TrainState θ σ × ℚ :=
  let loss := T.lossOf s.params
  let g := T.gadd T.gzero (T.gradOf s.params)
  let os := T.stepFn s.opt s.params g
  (⟨os.2, g, os.1⟩, loss)

/-- The epoch loop of `fit`, collecting the per-epoch losses in order. -/
def fitLoop {θ σ : Type} (T : Torch θ σ) : Nat → TrainState θ σ → TrainState θ σ × List ℚ
  | 0, s => (s, [])
  | n + 1, s =>
      let sl := fitStep T s
      let r := fitLoop T n sl.1
      (r.1, sl.2 :: r.2)

/-- `fit`: runs the epoch loop unless the progress-printing guard
`epoch % (epochs // 10)` raises `ZeroDivisionError`, which happens at
epoch 0 exactly when `epochs` is positive and `epochs // 10 == 0`. -/
def fit {θ σ : Type} (T : Torch θ σ) (epochs : Nat) (s : TrainState θ σ) :
    Option (TrainState θ σ × List ℚ) :=
  if epochs ≠ 0 ∧ epochs / 10 = 0 then none
  else some (fitLoop T epochs s)

/-- A concrete instantiation of the abstracted torch facilities over
scalar parameters, used to evaluate `fit` at concrete inputs: loss and
gradient are the parameter itself, gradients accumulate by addition from
a zero buffer, and the optimizer subtracts the gradient. -/
def scalarTorch : Torch ℚ ℚ :=
  ⟨id, id, fun a b => a + b, 0, fun o p g => (o, p - g)⟩

/-! ## Sampler

Notebook cell:
```
ctx = [0, 0, 0]
gen_name = ''
while True:
    ctx_tensor = torch.tensor(ctx).unsqueeze(0)
    logits = model(ctx_tensor)
    probas = torch.softmax(logits, dim=1)
    idx = torch.multinomial(probas, 1)
    char = itos[idx.item()]
    gen_name += char
    ctx = ctx[1:] + [idx.item()]
    if char == '.':
        break
print(gen_name)
```
The composite `softmax(model(ctx))` followed by `torch.multinomial` is
abstracted as a draw oracle giving the sampled code for each context, so
the theorems quantify over every run; `torch.multinomial` over a
probability vector of length `V` always returns an index `< V`, which
theorems take as a hypothesis on the oracle.  The `while True` loop is
given explicit fuel: `SampleOut.more` records that after `fuel`
iterations the loop is still running with the given context and the name
generated so far. -/

/-- Result of running the generation loop for a bounded number of
iterations. -/
inductive SampleOut where
  | ok : String → SampleOut
  | err : SampleOut
  | more : List Nat → String → SampleOut
deriving DecidableEq

/-- The generation loop: draw a code, decode it through `itos`
(`KeyError` gives `SampleOut.err`), append the character to the name,
slide the context, and stop when the character is `'.'`. -/
def sampleLoop (words : List String) (draw : List Nat → Nat) :
    Nat → List Nat → String → SampleOut
  | 0, ctx, acc => .more ctx acc
  | n + 1, ctx, acc =>
      let idx := draw ctx
      match itos words (idx : Int) with
      | none => .err
      | some c =>
          let acc2 := acc.push c
          let ctx2 := ctx.drop 1 ++ [idx]
          if c = '.' then .ok acc2 else sampleLoop words draw n ctx2 acc2

/-! ## Helper lemmas about the vocabulary -/

theorem mem_charsOf {words : List String} {c : Char} :
    c ∈ charsOf words ↔ ∃ w ∈ words, c ∈ w.toList := by
  unfold charsOf
  rw [(List.perm_insertionSort _ _).mem_iff, List.mem_dedup, List.mem_flatMap]

theorem charsOf_nodup (words : List String) : (charsOf words).Nodup :=
  (List.perm_insertionSort _ _).nodup_iff.mpr (List.nodup_dedup _)

theorem charsOf_sorted (words : List String) :
    List.Sorted (fun a b => a ≤ b) (charsOf words) :=
  List.sorted_insertionSort _ _

theorem stoi_dot (words : List String) : stoi words '.' = some 0 := by
  simp [stoi]

theorem itos_zero (words : List String) : itos words 0 = some '.' := by
  simp [itos]

theorem itos_of_pos (words : List String) (k : Nat) (h1 : 1 ≤ k)
    (h2 : k ≤ (charsOf words).length) :
    itos words (k : Int) = (charsOf words).get? (k - 1) := by
  have hk0 : ¬((k : Int) = 0) := by omega
  have hk1 : 1 ≤ (k : Int) ∧ (k : Int) ≤ ((charsOf words).length : Int) := by omega
  have ht : ((k : Int) - 1).toNat = k - 1 := by omega
  simp only [itos]
  rw [if_neg hk0, if_pos hk1, ht]

theorem stoi_lt {words : List String} {c : Char} {k : Nat}
    (h : stoi words c = some k) : k < vocabSize words := by
  unfold stoi at h
  unfold vocabSize
  by_cases hc : c = '.'
  · simp [hc] at h
    omega
  · by_cases hm : c ∈ charsOf words
    · simp [hc, hm] at h
      have := List.indexOf_lt_length.mpr hm
      omega
    · simp [hc, hm] at h

theorem stoi_isSome_of_mem {words : List String} {c : Char}
    (h : c ∈ charsOf words) : (stoi words c).isSome := by
  unfold stoi
  by_cases hc : c = '.'
  · simp [hc]
  · simp [hc, h]

theorem itos_stoi_roundtrip {words : List String} {c : Char}
    (h : c ∈ charsOf words) :
    ∃ n, stoi words c = some n ∧ itos words (n : Int) = some c := by
  by_cases hc : c = '.'
  · exact ⟨0, by simp [hc, stoi_dot], by simpa [hc] using itos_zero words⟩
  · refine ⟨(charsOf words).indexOf c + 1, by simp [stoi, hc, h], ?_⟩
    have hlt : (charsOf words).indexOf c < (charsOf words).length :=
      List.indexOf_lt_length.mpr h
    rw [itos_of_pos words _ (by omega) (by omega)]
    simp only [Nat.add_sub_cancel]
    rw [List.get?_eq_get hlt]
    rw [List.indexOf_get hlt]

/-- Any in-range code decodes to some character. -/
theorem itos_isSome_iff (words : List String) (k : Int) :
    (itos words k).isSome ↔ 0 ≤ k ∧ k < (vocabSize words : Int) := by
  unfold itos vocabSize
  by_cases h0 : k = 0
  · rw [if_pos h0]
    constructor
    · intro _
      omega
    · intro _
      rfl
  · by_cases hr : 1 ≤ k ∧ k ≤ ((charsOf words).length : Int)
    · rw [if_neg h0, if_pos hr]
      have hlt : (k - 1).toNat < (charsOf words).length := by omega
      rw [List.get?_eq_get hlt]
      constructor
      · intro _
        omega
      · intro _
        rfl
    · rw [if_neg h0, if_neg hr]
      constructor
      · intro hfalse
        simp at hfalse
      · intro hk
        omega

/-! ## Claim C5: vocabulary contract -/

/-- C5: for every non-empty corpus, the vocabulary assigns code `0` to the
boundary symbol `'.'` and codes `1..V-1` to the distinct corpus
characters in sorted lexicographic order, the codes form the contiguous
range `[0, V-1]` (a code decodes exactly when it lies in that range), and
`decode(encode(c)) = c` for every character `c` of the corpus while
`decode(0)` is the boundary symbol.  Determinism across runs holds
definitionally: `stoi` and `itos` are pure functions of the corpus. -/
theorem vocab_contract_C5 (words : List String) (hne : charsOf words ≠ []) :
    itos words 0 = some '.' ∧
    stoi words '.' = some 0 ∧
    List.Sorted (fun a b => a ≤ b) (charsOf words) ∧
    (charsOf words).Nodup ∧
    (∀ c : Char, c ∈ charsOf words ↔ ∃ w ∈ words, c ∈ w.toList) ∧
    (∀ k : Nat, 1 ≤ k → k ≤ vocabSize words - 1 →
        itos words (k : Int) = (charsOf words).get? (k - 1)) ∧
    (∀ k : Int, (itos words k).isSome ↔ 0 ≤ k ∧ k < (vocabSize words : Int)) ∧
    (∀ c : Char, (∃ w ∈ words, c ∈ w.toList) →
        ∃ n : Nat, stoi words c = some n ∧ itos words (n : Int) = some c) := by
  refine ⟨itos_zero words, stoi_dot words, charsOf_sorted words, charsOf_nodup words,
    fun c => mem_charsOf, ?_, itos_isSome_iff words, ?_⟩
  · intro k h1 h2
    refine itos_of_pos words k h1 ?_
    unfold vocabSize at h2
    omega
  · intro c hc
    exact itos_stoi_roundtrip (mem_charsOf.mpr hc)

/-- Witness for C5 at the corpus `["ab", "ba", "aab"]`. -/
theorem vocab_contract_C5_witness :
    charsOf ["ab", "ba", "aab"] ≠ [] ∧
    (itos ["ab", "ba", "aab"] 0 = some '.' ∧
     stoi ["ab", "ba", "aab"] '.' = some 0 ∧
     List.Sorted (fun a b => a ≤ b) (charsOf ["ab", "ba", "aab"]) ∧
     (charsOf ["ab", "ba", "aab"]).Nodup ∧
     (∀ c : Char, c ∈ charsOf ["ab", "ba", "aab"] ↔
        ∃ w ∈ ["ab", "ba", "aab"], c ∈ w.toList) ∧
     (∀ k : Nat, 1 ≤ k → k ≤ vocabSize ["ab", "ba", "aab"] - 1 →
        itos ["ab", "ba", "aab"] (k : Int) = (charsOf ["ab", "ba", "aab"]).get? (k - 1)) ∧
     (∀ k : Int, (itos ["ab", "ba", "aab"] k).isSome ↔
        0 ≤ k ∧ k < (vocabSize ["ab", "ba", "aab"] : Int)) ∧
     (∀ c : Char, (∃ w ∈ ["ab", "ba", "aab"], c ∈ w.toList) →
        ∃ n : Nat, stoi ["ab", "ba", "aab"] c = some n ∧
          itos ["ab", "ba", "aab"] (n : Int) = some c)) :=
  ⟨by decide, vocab_contract_C5 ["ab", "ba", "aab"] (by decide)⟩

/-! ## Claim C8: invalid-code decode -/

/-- C8: for every vocabulary of size `V` built from a non-empty corpus,
`decode(V)` and `decode(-1)` fail (`KeyError`, modelled as `none`), and
in general decoding any code outside `[0, V-1]` fails. -/
theorem decode_invalid_C8 (words : List String) (hne : charsOf words ≠ []) :
    itos words (vocabSize words : Int) = none ∧
    itos words (-1) = none ∧
    (∀ k : Int, k < 0 ∨ (vocabSize words : Int) ≤ k → itos words k = none) := by
  have hmain : ∀ k : Int, k < 0 ∨ (vocabSize words : Int) ≤ k → itos words k = none := by
    intro k hk
    cases ho : itos words k with
    | none => rfl
    | some c =>
        exfalso
        have hs : (0 : Int) ≤ k ∧ k < (vocabSize words : Int) :=
          (itos_isSome_iff words k).mp (by simp [ho])
        omega
  exact ⟨hmain _ (Or.inr (by omega)), hmain _ (Or.inl (by omega)), hmain⟩

/-- Witness for C8 at the corpus `["ab", "ba", "aab"]` (vocabulary size
3: codes 0, 1, 2). -/
theorem decode_invalid_C8_witness :
    charsOf ["ab", "ba", "aab"] ≠ [] ∧
    (itos ["ab", "ba", "aab"] (vocabSize ["ab", "ba", "aab"] : Int) = none ∧
     itos ["ab", "ba", "aab"] (-1) = none ∧
     (∀ k : Int, k < 0 ∨ (vocabSize ["ab", "ba", "aab"] : Int) ≤ k →
        itos ["ab", "ba", "aab"] k = none)) :=
  ⟨by decide, decode_invalid_C8 ["ab", "ba", "aab"] (by decide)⟩

/-! ## Helper lemmas about the example builder -/

theorem buildName_nil (st : Char → Option Nat) (ctx : List Nat) :
    buildName st ctx [] = some [] := rfl

theorem buildName_cons {st : Char → Option Nat} {c : Char} {cs : List Char}
    {ctx : List Nat} {l : List (List Nat × Nat)} :
    buildName st ctx (c :: cs) = some l ↔
    ∃ k rest, st c = some k ∧
      buildName st (ctx.drop 1 ++ [k]) cs = some rest ∧ l = (ctx, k) :: rest := by
  have hunf : buildName st ctx (c :: cs) =
      (st c).bind (fun k => (buildName st (ctx.drop 1 ++ [k]) cs).bind
        (fun rest => some ((ctx, k) :: rest))) := rfl
  rw [hunf]
  simp only [Option.bind_eq_some, Option.some.injEq]
  constructor
  · rintro ⟨k, hk, rest, hrest, hl⟩
    exact ⟨k, rest, hk, hrest, hl.symm⟩
  · rintro ⟨k, rest, hk, hrest, hl⟩
    exact ⟨k, hk, rest, hrest, hl.symm⟩

theorem buildName_length {st : Char → Option Nat} :
    ∀ (cs : List Char) (ctx : List Nat) (l : List (List Nat × Nat)),
      buildName st ctx cs = some l → l.length = cs.length := by
  intro cs
  induction cs with
  | nil =>
      intro ctx l h
      rw [buildName_nil] at h
      cases h
      rfl
  | cons c cs ih =>
      intro ctx l h
      obtain ⟨k, rest, _, hrest, hl⟩ := buildName_cons.mp h
      subst hl
      simp [ih _ _ hrest]

theorem buildName_isSome {st : Char → Option Nat} :
    ∀ (cs : List Char) (ctx : List Nat),
      (∀ c ∈ cs, (st c).isSome) → ∃ l, buildName st ctx cs = some l := by
  intro cs
  induction cs with
  | nil => exact fun ctx _ => ⟨[], rfl⟩
  | cons c cs ih =>
      intro ctx h
      obtain ⟨k, hk⟩ := Option.isSome_iff_exists.mp (h c (by simp))
      obtain ⟨rest, hrest⟩ := ih (ctx.drop 1 ++ [k]) (fun d hd => h d (by simp [hd]))
      exact ⟨(ctx, k) :: rest, buildName_cons.mpr ⟨k, rest, hk, hrest, rfl⟩⟩

theorem buildName_head {st : Char → Option Nat} {c : Char} {cs : List Char}
    {ctx : List Nat} {l : List (List Nat × Nat)}
    (h : buildName st ctx (c :: cs) = some l) :
    ∃ k rest, l = (ctx, k) :: rest := by
  obtain ⟨k, rest, _, _, hl⟩ := buildName_cons.mp h
  exact ⟨k, rest, hl⟩

theorem buildName_chain {st : Char → Option Nat} :
    ∀ (cs : List Char) (ctx : List Nat) (l : List (List Nat × Nat)),
      buildName st ctx cs = some l →
      List.Chain' (fun a b : List Nat × Nat => b.1 = a.1.drop 1 ++ [a.2]) l := by
  intro cs
  induction cs with
  | nil =>
      intro ctx l h
      rw [buildName_nil] at h
      cases h
      exact List.chain'_nil
  | cons c cs ih =>
      intro ctx l h
      obtain ⟨k, rest, _, hrest, hl⟩ := buildName_cons.mp h
      subst hl
      refine List.chain'_cons'.mpr ⟨?_, ih _ _ hrest⟩
      intro b hb
      cases cs with
      | nil =>
          rw [buildName_nil] at hrest
          cases hrest
          simp at hb
      | cons d ds =>
          obtain ⟨k2, rest2, hr⟩ := buildName_head hrest
          subst hr
          simp at hb
          subst hb
          simp [List.drop_one]

theorem buildName_last_boundary {st : Char → Option Nat} (h0 : st '.' = some 0) :
    ∀ (cs : List Char) (ctx : List Nat) (l : List (List Nat × Nat)),
      buildName st ctx (cs ++ ['.']) = some l →
      ∃ l2 ctxl, l = l2 ++ [(ctxl, 0)] := by
  intro cs
  induction cs with
  | nil =>
      intro ctx l h
      simp only [List.nil_append] at h
      obtain ⟨k, rest, hk, hrest, hl⟩ := buildName_cons.mp h
      rw [buildName_nil] at hrest
      cases hrest
      rw [h0] at hk
      cases hk
      exact ⟨[], ctx, by simpa using hl⟩
  | cons c cs ih =>
      intro ctx l h
      rw [List.cons_append] at h
      obtain ⟨k, rest, _, hrest, hl⟩ := buildName_cons.mp h
      obtain ⟨l2, ctxl, hr⟩ := ih _ _ hrest
      exact ⟨(ctx, k) :: l2, ctxl, by simp [hl, hr]⟩

theorem buildName_bounds {st : Char → Option Nat} {V : Nat}
    (hst : ∀ c k, st c = some k → k < V) :
    ∀ (cs : List Char) (ctx : List Nat) (l : List (List Nat × Nat)),
      (∀ x ∈ ctx, x < V) → buildName st ctx cs = some l →
      ∀ p ∈ l, (∀ x ∈ p.1, x < V) ∧ p.2 < V := by
  intro cs
  induction cs with
  | nil =>
      intro ctx l _ h
      rw [buildName_nil] at h
      cases h
      simp
  | cons c cs ih =>
      intro ctx l hctx h
      obtain ⟨k, rest, hk, hrest, hl⟩ := buildName_cons.mp h
      subst hl
      have hk2 : k < V := hst c k hk
      have hctx2 : ∀ x ∈ ctx.drop 1 ++ [k], x < V := by
        intro x hx
        rcases List.mem_append.mp hx with hx | hx
        · exact hctx x (List.mem_of_mem_drop hx)
        · simp at hx
          omega
      intro p hp
      rcases List.mem_cons.mp hp with hp | hp
      · subst hp
        exact ⟨hctx, hk2⟩
      · exact ih _ _ hctx2 hrest p hp

theorem buildAll_nil (st : Char → Option Nat) (C : Nat) : buildAll st C [] = some [] := rfl

theorem buildAll_cons {st : Char → Option Nat} {C : Nat} {w : String}
    {ws : List String} {l : List (List Nat × Nat)} :
    buildAll st C (w :: ws) = some l ↔
    ∃ lw rest, buildName st (List.replicate C 0) (w.toList ++ ['.']) = some lw ∧
      buildAll st C ws = some rest ∧ l = lw ++ rest := by
  have hunf : buildAll st C (w :: ws) =
      (buildName st (List.replicate C 0) (w.toList ++ ['.'])).bind
        (fun lw => (buildAll st C ws).bind (fun rest => some (lw ++ rest))) := rfl
  rw [hunf]
  simp only [Option.bind_eq_some, Option.some.injEq]
  constructor
  · rintro ⟨lw, hlw, rest, hrest, hl⟩
    exact ⟨lw, rest, hlw, hrest, hl.symm⟩
  · rintro ⟨lw, rest, hlw, hrest, hl⟩
    exact ⟨lw, hlw, rest, hrest, hl.symm⟩

theorem stoi_corpus_isSome {words : List String} {w : String} {c : Char}
    (hw : w ∈ words) (hc : c ∈ w.toList ++ ['.']) : (stoi words c).isSome := by
  rcases List.mem_append.mp hc with hc | hc
  · exact stoi_isSome_of_mem (mem_charsOf.mpr ⟨w, hw, hc⟩)
  · simp at hc
    subst hc
    simp [stoi_dot]

theorem buildName_word_length {st : Char → Option Nat} {w : String} {C : Nat}
    {lw : List (List Nat × Nat)}
    (h : buildName st (List.replicate C 0) (w.toList ++ ['.']) = some lw) :
    lw.length = w.length + 1 := by
  have h1 := buildName_length _ _ _ h
  simpa using h1

theorem buildAll_spec {st : Char → Option Nat} {C : Nat} :
    ∀ (ws : List String),
      (∀ w ∈ ws, ∀ c ∈ w.toList ++ ['.'], (st c).isSome) →
      ∃ l, buildAll st C ws = some l ∧
        l.length = (ws.map String.length).sum + ws.length := by
  intro ws
  induction ws with
  | nil => exact fun _ => ⟨[], rfl, rfl⟩
  | cons w ws ih =>
      intro h
      obtain ⟨lw, hlw⟩ := buildName_isSome (w.toList ++ ['.']) _ (h w (by simp))
      obtain ⟨rest, hrest, hlen⟩ := ih (fun w2 hw2 => h w2 (by simp [hw2]))
      refine ⟨lw ++ rest, buildAll_cons.mpr ⟨lw, rest, hlw, hrest, rfl⟩, ?_⟩
      have h1 : lw.length = w.length + 1 := buildName_word_length hlw
      simp only [List.length_append, h1, hlen, List.map_cons, List.sum_cons,
        List.length_cons]
      omega

theorem buildAll_bounds {st : Char → Option Nat} {C V : Nat}
    (hst : ∀ c k, st c = some k → k < V) (hV : 0 < V) :
    ∀ (ws : List String) (l : List (List Nat × Nat)),
      buildAll st C ws = some l →
      ∀ p ∈ l, (∀ x ∈ p.1, x < V) ∧ p.2 < V := by
  intro ws
  induction ws with
  | nil =>
      intro l h
      rw [buildAll_nil] at h
      cases h
      simp
  | cons w ws ih =>
      intro l h
      obtain ⟨lw, rest, hlw, hrest, hl⟩ := buildAll_cons.mp h
      subst hl
      intro p hp
      rcases List.mem_append.mp hp with hp | hp
      · refine buildName_bounds hst _ _ _ ?_ hlw p hp
        intro x hx
        rw [List.mem_replicate] at hx
        omega
      · exact ih _ hrest p hp

theorem mapM_get_isSome {α : Type} {l : List α} :
    ∀ (ctx : List Nat), (∀ x ∈ ctx, x < l.length) →
      ∃ r, ctx.mapM (fun i => l.get? i) = some r := by
  intro ctx
  induction ctx with
  | nil => exact fun _ => ⟨[], rfl⟩
  | cons i is ih =>
      intro h
      have ha : ∃ a, l.get? i = some a := by
        rw [List.get?_eq_get (h i (by simp))]
        exact ⟨_, rfl⟩
      obtain ⟨a, ha⟩ := ha
      obtain ⟨r, hr⟩ := ih (fun x hx => h x (by simp [hx]))
      refine ⟨a :: r, ?_⟩
      simp only [List.mapM_cons, ha, hr]
      rfl

theorem forward_isSome {m : MLPLM} {ctx : List Nat}
    (h : ∀ x ∈ ctx, x < m.embedding.length) : (m.forward ctx).isSome := by
  obtain ⟨r, hr⟩ := mapM_get_isSome ctx h
  have hunf : m.forward ctx = (ctx.mapM (fun i => m.embedding.get? i)).bind
      (fun embs => some (linear m.W2 m.b2 (relu (linear m.W1 m.b1 embs.flatten)))) := rfl
  rw [hunf, hr]
  rfl

/-! ## Claim C6: example count -/

/-- C6: for every corpus of `N` names with total character count `T`, the
example builder produces exactly `T + N` examples; each name of length
`L` contributes exactly `L + 1` consecutive examples, and the last
example of each name's contribution has the boundary code `0` as its
target. -/
theorem example_count_C6 (words : List String) (C : Nat) :
    ∃ l, buildExamples words C = some l ∧
      l.length = (words.map String.length).sum + words.length ∧
      ∀ w ∈ words,
        ∃ lw, buildName (stoi words) (List.replicate C 0) (w.toList ++ ['.']) = some lw ∧
          lw.length = w.length + 1 ∧ ∃ lw2 ctxl, lw = lw2 ++ [(ctxl, 0)] := by
  obtain ⟨l, hl, hlen⟩ :=
    buildAll_spec (C := C) words (fun w hw c hc => stoi_corpus_isSome hw hc)
  refine ⟨l, hl, hlen, ?_⟩
  intro w hw
  obtain ⟨lw, hlw⟩ :=
    buildName_isSome (w.toList ++ ['.']) _ (fun c hc => stoi_corpus_isSome hw hc)
  exact ⟨lw, hlw, buildName_word_length hlw,
    buildName_last_boundary (stoi_dot words) _ _ _ hlw⟩

/-! ## Claim C7: context sliding invariant -/

/-- C7: for every name of the corpus, the first example has the all-zero
context of `C` copies of the boundary code, and every consecutive pair of
examples produced from that name slides: the later context equals the
earlier context shifted left by one position with the earlier target
appended at the end. -/
theorem context_sliding_C7 (words : List String) (C : Nat) (w : String)
    (hw : w ∈ words) :
    ∃ lw, buildName (stoi words) (List.replicate C 0) (w.toList ++ ['.']) = some lw ∧
      (∃ k rest, lw = (List.replicate C 0, k) :: rest) ∧
      List.Chain' (fun a b : List Nat × Nat => b.1 = a.1.drop 1 ++ [a.2]) lw := by
  obtain ⟨lw, hlw⟩ :=
    buildName_isSome (w.toList ++ ['.']) _ (fun c hc => stoi_corpus_isSome hw hc)
  have hne : w.toList ++ ['.'] ≠ [] := by simp
  obtain ⟨c, cs, hcs⟩ := List.exists_cons_of_ne_nil hne
  rw [hcs] at hlw
  obtain ⟨k, rest, hhead⟩ := buildName_head hlw
  exact ⟨lw, by rw [hcs]; exact hlw, ⟨k, rest, hhead⟩, buildName_chain _ _ _ hlw⟩

/-- Witness for C7 at the corpus `["ab", "ba", "aab"]`, name `"aab"`,
context length 3. -/
theorem context_sliding_C7_witness :
    "aab" ∈ ["ab", "ba", "aab"] ∧
    (∃ lw, buildName (stoi ["ab", "ba", "aab"]) (List.replicate 3 0)
        ("aab".toList ++ ['.']) = some lw ∧
      (∃ k rest, lw = (List.replicate 3 0, k) :: rest) ∧
      List.Chain' (fun a b : List Nat × Nat => b.1 = a.1.drop 1 ++ [a.2]) lw) :=
  ⟨by decide, context_sliding_C7 ["ab", "ba", "aab"] 3 "aab" (by decide)⟩

/-! ## Claim C10: all built codes are in range -/

/-- C10: every target and every context entry produced by the example
builder lies in `[0, V-1]`, and consequently every embedding-table lookup
made when a model whose embedding table has `V` rows is applied to a
built context succeeds — the out-of-range branch of the lookup is never
taken. -/
theorem codes_in_range_C10 (words : List String) (C : Nat) :
    ∃ l, buildExamples words C = some l ∧
      (∀ p ∈ l, (∀ x ∈ p.1, x < vocabSize words) ∧ p.2 < vocabSize words) ∧
      ∀ m : MLPLM, m.embedding.length = vocabSize words →
        ∀ p ∈ l, (m.forward p.1).isSome := by
  obtain ⟨l, hl, _⟩ :=
    buildAll_spec (C := C) words (fun w hw c hc => stoi_corpus_isSome hw hc)
  have hb := buildAll_bounds (fun c k h => stoi_lt h)
    (by unfold vocabSize; omega) words l hl
  refine ⟨l, hl, hb, ?_⟩
  intro m hm p hp
  refine forward_isSome ?_
  rw [hm]
  exact (hb p hp).1

/-! ## Helper lemmas about the sampler -/

theorem toList_push (s : String) (c : Char) : (s.push c).toList = s.toList ++ [c] := rfl

theorem sampleLoop_succ (words : List String) (draw : List Nat → Nat) (n : Nat)
    (ctx : List Nat) (acc : String) :
    sampleLoop words draw (n + 1) ctx acc =
      match itos words ((draw ctx : Nat) : Int) with
      | none => .err
      | some c =>
          if c = '.' then .ok (acc.push c)
          else sampleLoop words draw n (ctx.drop 1 ++ [draw ctx]) (acc.push c) := rfl

theorem sampleLoop_succ_some {words : List String} {draw : List Nat → Nat} {n : Nat}
    {ctx : List Nat} {acc : String} {c : Char}
    (hc : itos words ((draw ctx : Nat) : Int) = some c) :
    sampleLoop words draw (n + 1) ctx acc =
      if c = '.' then .ok (acc.push c)
      else sampleLoop words draw n (ctx.drop 1 ++ [draw ctx]) (acc.push c) := by
  rw [sampleLoop_succ, hc]

theorem itos_lt_isSome {words : List String} {k : Nat} (h : k < vocabSize words) :
    ∃ c, itos words (k : Int) = some c := by
  have hs := (itos_isSome_iff words (k : Int)).mpr ⟨by omega, by exact_mod_cast h⟩
  exact Option.isSome_iff_exists.mp hs

theorem itos_dot_iff {words : List String} (hdot : '.' ∉ charsOf words) {k : Nat}
    (hk : k < vocabSize words) : itos words (k : Int) = some '.' ↔ k = 0 := by
  constructor
  · intro h
    by_contra h0
    have h1 : 1 ≤ k := by omega
    have h2 : k ≤ (charsOf words).length := by
      unfold vocabSize at hk
      omega
    rw [itos_of_pos words k h1 h2] at h
    exact hdot (List.get?_mem h)
  · intro h
    subst h
    simpa using itos_zero words

theorem sampleLoop_ok_shape {words : List String} {draw : List Nat → Nat}
    (hdot : '.' ∉ charsOf words) (hdraw : ∀ ctx, draw ctx < vocabSize words) :
    ∀ (fuel : Nat) (ctx : List Nat) (acc s : String),
      sampleLoop words draw fuel ctx acc = .ok s →
      ∃ l, s.toList = acc.toList ++ l ++ ['.'] ∧ '.' ∉ l := by
  intro fuel
  induction fuel with
  | zero =>
      intro ctx acc s h
      exact SampleOut.noConfusion h
  | succ n ih =>
      intro ctx acc s h
      obtain ⟨c, hc⟩ := itos_lt_isSome (hdraw ctx)
      rw [sampleLoop_succ_some hc] at h
      by_cases hcd : c = '.'
      · simp only [if_pos hcd] at h
        cases h
        subst hcd
        exact ⟨[], by simp [toList_push], by simp⟩
      · simp only [if_neg hcd] at h
        obtain ⟨l, hl, hnl⟩ := ih _ _ _ h
        refine ⟨c :: l, ?_, ?_⟩
        · rw [hl, toList_push]
          simp
        · simp only [List.mem_cons, not_or]
          exact ⟨fun hcc => hcd hcc.symm, hnl⟩

/-! ## Claim C1: sampler termination and the boundary character -/

/-- C1 (amended): the generation loop terminates exactly when the sampled
code equals the boundary code 0 (for a corpus without the boundary
character, the decoded character is `'.'` exactly for code 0), but the
boundary character is NOT excluded from the returned string: the
character is appended before the break test, so every returned string is
a boundary-free prefix followed by one final `'.'`.  The draw oracle
abstracts `torch.multinomial(softmax(model(ctx)))`, which always returns
an index below the vocabulary size. -/
theorem sampler_boundary_C1 (words : List String) (draw : List Nat → Nat)
    (hdot : '.' ∉ charsOf words) (hdraw : ∀ ctx, draw ctx < vocabSize words) :
    (∀ (n : Nat) (ctx : List Nat) (acc : String), draw ctx = 0 →
        sampleLoop words draw (n + 1) ctx acc = .ok (acc.push '.')) ∧
    (∀ (n : Nat) (ctx : List Nat) (acc : String), draw ctx ≠ 0 →
        ∃ c, itos words ((draw ctx : Nat) : Int) = some c ∧ c ≠ '.' ∧
          sampleLoop words draw (n + 1) ctx acc =
            sampleLoop words draw n (ctx.drop 1 ++ [draw ctx]) (acc.push c)) ∧
    (∀ (fuel : Nat) (ctx : List Nat) (s : String),
        sampleLoop words draw fuel ctx "" = .ok s →
        ∃ l, s.toList = l ++ ['.'] ∧ '.' ∉ l) := by
  refine ⟨?_, ?_, ?_⟩
  · intro n ctx acc h0
    have hc : itos words ((draw ctx : Nat) : Int) = some '.' := by
      rw [h0]
      simpa using itos_zero words
    rw [sampleLoop_succ_some hc, if_pos rfl]
  · intro n ctx acc h0
    obtain ⟨c, hc⟩ := itos_lt_isSome (hdraw ctx)
    have hcd : c ≠ '.' := by
      intro h
      subst h
      exact h0 ((itos_dot_iff hdot (hdraw ctx)).mp hc)
    refine ⟨c, hc, hcd, ?_⟩
    rw [sampleLoop_succ_some hc, if_neg hcd]
  · intro fuel ctx s h
    obtain ⟨l, hl, hnl⟩ := sampleLoop_ok_shape hdot hdraw fuel ctx "" s h
    exact ⟨l, by simpa using hl, hnl⟩

/-- C1 counterexample to the claim as stated: with the corpus
`["ab", "ba", "aab"]` and a run whose first draw is the boundary code 0,
the loop returns the string `"."`, which does contain the boundary
character — it is not excluded from the returned string. -/
theorem sampler_boundary_C1_counterexample :
    sampleLoop ["ab", "ba", "aab"] (fun _ => 0) 1 [0, 0, 0] "" = .ok "." ∧
    '.' ∈ (".").toList := by
  constructor
  · rfl
  · decide

/-- Witness for C1 (amended) at the corpus `["ab", "ba", "aab"]` with the
always-boundary draw oracle. -/
theorem sampler_boundary_C1_witness :
    ('.' ∉ charsOf ["ab", "ba", "aab"] ∧
     ∀ ctx : List Nat, (fun _ : List Nat => 0) ctx < vocabSize ["ab", "ba", "aab"]) ∧
    ((∀ (n : Nat) (ctx : List Nat) (acc : String), (fun _ : List Nat => 0) ctx = 0 →
        sampleLoop ["ab", "ba", "aab"] (fun _ => 0) (n + 1) ctx acc = .ok (acc.push '.')) ∧
     (∀ (n : Nat) (ctx : List Nat) (acc : String), (fun _ : List Nat => 0) ctx ≠ 0 →
        ∃ c, itos ["ab", "ba", "aab"] (((fun _ : List Nat => 0) ctx : Nat) : Int) = some c ∧
          c ≠ '.' ∧
          sampleLoop ["ab", "ba", "aab"] (fun _ => 0) (n + 1) ctx acc =
            sampleLoop ["ab", "ba", "aab"] (fun _ => 0) n
              (ctx.drop 1 ++ [(fun _ : List Nat => 0) ctx]) (acc.push c)) ∧
     (∀ (fuel : Nat) (ctx : List Nat) (s : String),
        sampleLoop ["ab", "ba", "aab"] (fun _ => 0) fuel ctx "" = .ok s →
        ∃ l, s.toList = l ++ ['.'] ∧ '.' ∉ l)) :=
  ⟨⟨by decide, by intro c2 ; show (0 : Nat) < vocabSize ["ab", "ba", "aab"] ; decide⟩,
    sampler_boundary_C1 ["ab", "ba", "aab"] (fun _ => 0) (by decide)
      (by intro c2 ; show (0 : Nat) < vocabSize ["ab", "ba", "aab"] ; decide)⟩

/-! ## Claim C2: no generation cap exists -/

/-- C2 (amended): the generation loop has no `max_length_cap` and no
`GenerationCapExceededError`: on any run whose draws never produce the
boundary code, the loop is still running after every number of
iterations, having produced exactly one character per iteration, and no
error is ever signalled. -/
theorem sampler_nocap_C2 (words : List String) (draw : List Nat → Nat)
    (hdraw0 : ∀ ctx, draw ctx ≠ 0) (hdraw : ∀ ctx, draw ctx < vocabSize words)
    (hdot : '.' ∉ charsOf words) :
    ∀ (fuel : Nat) (ctx : List Nat) (acc : String),
      ∃ ctx2 acc2, sampleLoop words draw fuel ctx acc = .more ctx2 acc2 ∧
        acc2.toList.length = acc.toList.length + fuel := by
  intro fuel
  induction fuel with
  | zero =>
      intro ctx acc
      exact ⟨ctx, acc, rfl, by simp⟩
  | succ n ih =>
      intro ctx acc
      obtain ⟨c, hc⟩ := itos_lt_isSome (hdraw ctx)
      have hcd : c ≠ '.' := by
        intro h
        subst h
        exact hdraw0 ctx ((itos_dot_iff hdot (hdraw ctx)).mp hc)
      obtain ⟨ctx2, acc2, hs, hlen⟩ := ih (ctx.drop 1 ++ [draw ctx]) (acc.push c)
      refine ⟨ctx2, acc2, ?_, ?_⟩
      · rw [sampleLoop_succ_some hc, if_neg hcd]
        exact hs
      · rw [hlen, toList_push]
        simp
        omega

/-- C2 counterexample to the claim as stated: with the corpus
`["ab", "ba", "aab"]` and a run that always draws code 1 (the letter
`'a'`), after 51 iterations — beyond the spec's example cap of 50 — the
loop is still running with 51 generated characters, and no
`GenerationCapExceededError` has been signalled (the code has no such
error). -/
theorem sampler_nocap_C2_counterexample :
    sampleLoop ["ab", "ba", "aab"] (fun _ => 1) 51 [0, 0, 0] "" =
      .more [1, 1, 1] (String.mk (List.replicate 51 'a')) := by
  decide

/-- Witness for C2 (amended) at the corpus `["ab", "ba", "aab"]` with the
always-`'a'` draw oracle. -/
theorem sampler_nocap_C2_witness :
    ((∀ ctx : List Nat, (fun _ : List Nat => 1) ctx ≠ 0) ∧
     (∀ ctx : List Nat, (fun _ : List Nat => 1) ctx < vocabSize ["ab", "ba", "aab"]) ∧
     '.' ∉ charsOf ["ab", "ba", "aab"]) ∧
    (∀ (fuel : Nat) (ctx : List Nat) (acc : String),
      ∃ ctx2 acc2, sampleLoop ["ab", "ba", "aab"] (fun _ => 1) fuel ctx acc = .more ctx2 acc2 ∧
        acc2.toList.length = acc.toList.length + fuel) :=
  ⟨⟨by intro c2 ; show (1 : Nat) ≠ 0 ; decide,
    by intro c2 ; show (1 : Nat) < vocabSize ["ab", "ba", "aab"] ; decide, by decide⟩,
    sampler_nocap_C2 ["ab", "ba", "aab"] (fun _ => 1)
      (by intro c2 ; show (1 : Nat) ≠ 0 ; decide)
      (by intro c2 ; show (1 : Nat) < vocabSize ["ab", "ba", "aab"] ; decide) (by decide)⟩

/-! ## Helper lemmas about the trainer -/

theorem fitStep_loss {θ σ : Type} (T : Torch θ σ) (s : TrainState θ σ) :
    (fitStep T s).2 = T.lossOf s.params := rfl

theorem fitStep_grads {θ σ : Type} (T : Torch θ σ)
    (hgz : ∀ g, T.gadd T.gzero g = g) (s : TrainState θ σ) :
    (fitStep T s).1.grads = T.gradOf s.params := by
  show T.gadd T.gzero (T.gradOf s.params) = T.gradOf s.params
  exact hgz _

theorem fitStep_params {θ σ : Type} (T : Torch θ σ)
    (hgz : ∀ g, T.gadd T.gzero g = g) (s : TrainState θ σ) :
    (fitStep T s).1.params = (T.stepFn s.opt s.params (T.gradOf s.params)).2 := by
  show (T.stepFn s.opt s.params (T.gadd T.gzero (T.gradOf s.params))).2 = _
  rw [hgz]

theorem fitLoop_zero {θ σ : Type} (T : Torch θ σ) (s : TrainState θ σ) :
    fitLoop T 0 s = (s, []) := rfl

theorem fitLoop_succ {θ σ : Type} (T : Torch θ σ) (n : Nat) (s : TrainState θ σ) :
    fitLoop T (n + 1) s =
      ((fitLoop T n (fitStep T s).1).1,
        (fitStep T s).2 :: (fitLoop T n (fitStep T s).1).2) := rfl

theorem fitLoop_length {θ σ : Type} (T : Torch θ σ) :
    ∀ (n : Nat) (s : TrainState θ σ), (fitLoop T n s).2.length = n := by
  intro n
  induction n with
  | zero => intro s; rfl
  | succ n ih =>
      intro s
      rw [fitLoop_succ]
      simp [ih]

theorem fitLoop_losses {θ σ : Type} (T : Torch θ σ) :
    ∀ (n : Nat) (s : TrainState θ σ) (k : Nat), k < n →
      (fitLoop T n s).2.get? k =
        some (T.lossOf (((fun s2 => (fitStep T s2).1)^[k]) s).params) := by
  intro n
  induction n with
  | zero => intro s k hk; omega
  | succ n ih =>
      intro s k hk
      rw [fitLoop_succ]
      cases k with
      | zero => rfl
      | succ k =>
          have h2 : (fitLoop T n (fitStep T s).1).2.get? k =
              some (T.lossOf (((fun s2 => (fitStep T s2).1)^[k]) (fitStep T s).1).params) :=
            ih (fitStep T s).1 k (by omega)
          simp only [List.get?_cons_succ, h2, Function.iterate_succ_apply]

/-! ## Claim C4: one full-batch update per epoch, fresh gradients,
one loss entry per epoch -/

/-- C4 (amended): for every call to `fit` with `epochs ≥ 10`, the loop
runs, each epoch performs exactly one optimizer step on the gradient of
the full-batch loss at that epoch's parameters (the gradient buffers are
reset before `backward`, so no epoch's update uses a prior epoch's
gradient, provided accumulating into the zero buffer is the identity),
and the returned loss history has exactly `epochs` entries in epoch
order, entry `k` being the full-batch loss at epoch `k`'s parameters.
For `1 ≤ epochs ≤ 9` the claim as stated fails: the progress-printing
guard `epoch % (epochs // 10)` raises `ZeroDivisionError` and no history
is returned (see the counterexample). -/
theorem trainer_epochs_C4 {θ σ : Type} (T : Torch θ σ) (epochs : Nat)
    (s : TrainState θ σ) (he : 10 ≤ epochs) (hgz : ∀ g, T.gadd T.gzero g = g) :
    fit T epochs s = some (fitLoop T epochs s) ∧
    (fitLoop T epochs s).2.length = epochs ∧
    (∀ k, k < epochs →
      (fitLoop T epochs s).2.get? k =
        some (T.lossOf (((fun s2 => (fitStep T s2).1)^[k]) s).params)) ∧
    (∀ s2 : TrainState θ σ,
      (fitStep T s2).1.grads = T.gradOf s2.params ∧
      (fitStep T s2).2 = T.lossOf s2.params ∧
      (fitStep T s2).1.params = (T.stepFn s2.opt s2.params (T.gradOf s2.params)).2) := by
  refine ⟨?_, fitLoop_length T epochs s, fun k hk => fitLoop_losses T epochs s k hk, ?_⟩
  · unfold fit
    rw [if_neg]
    intro h
    omega
  · intro s2
    exact ⟨fitStep_grads T hgz s2, fitStep_loss T s2, fitStep_params T hgz s2⟩

/-- C4 counterexample to the claim as stated: calling `fit` with the
positive epoch count 5 crashes (the progress-printing guard computes
`epoch % (5 // 10) = epoch % 0`, a `ZeroDivisionError`), so no loss
history with 5 entries is returned. -/
theorem trainer_epochs_C4_counterexample :
    0 < 5 ∧ fit scalarTorch 5 ⟨0, 0, 0⟩ = none := by
  constructor
  · decide
  · rfl

/-- Witness for C4 (amended) at the scalar instantiation with 10 epochs. -/
theorem trainer_epochs_C4_witness :
    (10 ≤ 10 ∧ ∀ g : ℚ, scalarTorch.gadd scalarTorch.gzero g = g) ∧
    (fit scalarTorch 10 ⟨0, 0, 0⟩ = some (fitLoop scalarTorch 10 ⟨0, 0, 0⟩) ∧
     (fitLoop scalarTorch 10 ⟨0, 0, 0⟩).2.length = 10 ∧
     (∀ k, k < 10 →
       (fitLoop scalarTorch 10 (⟨0, 0, 0⟩ : TrainState ℚ ℚ)).2.get? k =
         some (scalarTorch.lossOf
           (((fun s2 => (fitStep scalarTorch s2).1)^[k]) ⟨0, 0, 0⟩).params)) ∧
     (∀ s2 : TrainState ℚ ℚ,
       (fitStep scalarTorch s2).1.grads = scalarTorch.gradOf s2.params ∧
       (fitStep scalarTorch s2).2 = scalarTorch.lossOf s2.params ∧
       (fitStep scalarTorch s2).1.params =
         (scalarTorch.stepFn s2.opt s2.params (scalarTorch.gradOf s2.params)).2)) :=
  ⟨⟨by omega, fun g => by simp [scalarTorch]⟩,
    trainer_epochs_C4 scalarTorch 10 ⟨0, 0, 0⟩ (by omega) (fun g => by simp [scalarTorch])⟩

/-! ## Helper lemmas about the language model -/

theorem linear_eq_affine {W : List (List ℚ)} {b : List ℚ} (x : List ℚ)
    (hb : b.length = W.length) : linear W b x = affine W b x := by
  unfold linear affine
  apply List.ext_getElem
  · simp [hb]
  · intro i h1 h2
    simp only [List.getElem_zipWith, List.getElem_map, List.getElem_range]
    have hiW : i < W.length := by
      simp at h1
      omega
    have hib : i < b.length := by
      simp at h1
      omega
    rw [List.getD_eq_getElem W [] hiW, List.getD_eq_getElem b 0 hib]

theorem mapM_get_eq_map {α : Type} (l : List α) (d : α) :
    ∀ (ctx : List Nat), (∀ k ∈ ctx, k < l.length) →
      ctx.mapM (fun i => l.get? i) = some (ctx.map (fun k => l.getD k d)) := by
  intro ctx
  induction ctx with
  | nil => intro _; rfl
  | cons i is ih =>
      intro h
      have hi : i < l.length := h i (by simp)
      have ha : l.get? i = some (l.getD i d) := by
        rw [List.get?_eq_get hi, List.get_eq_getElem, List.getD_eq_getElem l d hi]
      have h2 := ih (fun k hk => h k (by simp [hk]))
      simp only [List.mapM_cons, ha, h2, List.map_cons]
      rfl

theorem flatten_length_uniform {D : Nat} :
    ∀ (ls : List (List ℚ)), (∀ l ∈ ls, l.length = D) →
      ls.flatten.length = ls.length * D := by
  intro ls
  induction ls with
  | nil => intro _; simp
  | cons l ls ih =>
      intro h
      have hl : l.length = D := h l (by simp)
      have h2 := ih (fun l2 hl2 => h l2 (by simp [hl2]))
      simp only [List.flatten_cons, List.length_append, hl, h2, List.length_cons]
      ring

theorem flatten_drop_take {D : Nat} :
    ∀ (ls : List (List ℚ)) (i : Nat), (∀ l ∈ ls, l.length = D) → i < ls.length →
      (ls.flatten.drop (i * D)).take D = ls.getD i [] := by
  intro ls
  induction ls with
  | nil =>
      intro i _ hi
      simp at hi
  | cons l ls ih =>
      intro i h hi
      have hl : l.length = D := h l (by simp)
      cases i with
      | zero =>
          simp only [Nat.zero_mul, List.drop_zero, List.flatten_cons, List.getD_eq_getElem _ _ hi]
          rw [← hl]
          simp only [List.take_left]
          rfl
      | succ i =>
          have heq : (i + 1) * D = l.length + i * D := by
            rw [hl]
            ring
          rw [List.flatten_cons, heq, List.drop_append]
          have h2 := ih i (fun l2 hl2 => h l2 (by simp [hl2])) (by simp at hi; omega)
          rw [h2]
          rfl

theorem forward_eq_spec {m : MLPLM} {V D C H : Nat} (hm : m.WF V D C H)
    {ctx : List Nat} (hctx : ∀ k ∈ ctx, k < V) :
    m.forward ctx = some (forwardSpec m ctx) := by
  obtain ⟨hV, hD, hW1, hr1, hb1, hW2, hr2, hb2⟩ := hm
  have hmap := mapM_get_eq_map m.embedding [] ctx (by rw [hV]; exact hctx)
  have hunf : m.forward ctx = (ctx.mapM (fun i => m.embedding.get? i)).bind
      (fun embs => some (linear m.W2 m.b2 (relu (linear m.W1 m.b1 embs.flatten)))) := rfl
  rw [hunf, hmap]
  show some _ = some _
  congr 1
  unfold forwardSpec relu
  rw [linear_eq_affine _ (by rw [hb2, hW2]), linear_eq_affine _ (by rw [hb1, hW1])]
  rfl

theorem concatEmbeds_rows {m : MLPLM} {V D C H : Nat} (hm : m.WF V D C H)
    {ctx : List Nat} (hctx : ∀ k ∈ ctx, k < V) :
    ∀ l ∈ ctx.map (fun k => lookupRow m k), l.length = D := by
  obtain ⟨hV, hD, _, _, _, _, _, _⟩ := hm
  intro l hl
  rw [List.mem_map] at hl
  obtain ⟨k, hk, hlk⟩ := hl
  have hkV : k < m.embedding.length := by
    rw [hV]
    exact hctx k hk
  subst hlk
  unfold lookupRow
  rw [List.getD_eq_getElem _ _ hkV]
  exact hD _ (List.getElem_mem hkV)

theorem forwardBatch_eq {m : MLPLM} {V D C H : Nat} (hm : m.WF V D C H) :
    ∀ (ctxs : List (List Nat)), (∀ ctx ∈ ctxs, ∀ k ∈ ctx, k < V) →
      forwardBatch m ctxs = some (ctxs.map (fun ctx => forwardSpec m ctx)) := by
  intro ctxs
  induction ctxs with
  | nil => intro _; rfl
  | cons x xs ih =>
      intro h
      have h1 := forward_eq_spec hm (h x (by simp))
      have h2 := ih (fun c hc => h c (by simp [hc]))
      show (x :: xs).mapM (fun ctx => m.forward ctx) = _
      simp only [List.mapM_cons, h1]
      unfold forwardBatch at h2
      simp only [h2, List.map_cons]
      rfl

/-! ## Claim C3: the forward contract -/

/-- C3: for every well-formed model and every context of `C` in-range
codes, `forward` returns (`some` of) exactly the vector the spec
describes: the `C` codes are looked up in the embedding table, the `C`
vectors of dimension `D` are concatenated order-preservingly (position
`i` of the context owns the slice `[i·D, (i+1)·D)` of the concatenated
vector of dimension `C·D`), a first linear transform + bias produces `H`
hidden units, `max(0, ·)` is applied elementwise, and a second linear
transform + bias produces the `V` logits; no softmax or other
normalization appears anywhere in `forward` (the returned vector is the
raw second affine output).  The batched form maps the same computation
over `N` contexts and returns `N` logit vectors. -/
theorem forward_contract_C3 (m : MLPLM) (V D C H : Nat) (hm : m.WF V D C H) :
    (∀ ctx : List Nat, ctx.length = C → (∀ k ∈ ctx, k < V) →
      m.forward ctx = some (forwardSpec m ctx) ∧
      (forwardSpec m ctx).length = V ∧
      (affine m.W1 m.b1 (concatEmbeds m ctx)).length = H ∧
      (concatEmbeds m ctx).length = C * D ∧
      (∀ i, i < C →
        ((concatEmbeds m ctx).drop (i * D)).take D = lookupRow m (ctx.getD i 0))) ∧
    (∀ ctxs : List (List Nat), (∀ ctx ∈ ctxs, ctx.length = C ∧ ∀ k ∈ ctx, k < V) →
      forwardBatch m ctxs = some (ctxs.map (fun ctx => forwardSpec m ctx)) ∧
      (ctxs.map (fun ctx => forwardSpec m ctx)).length = ctxs.length) := by
  obtain ⟨hV, hD, hW1, hr1, hb1, hW2, hr2, hb2⟩ := hm
  have hm2 : m.WF V D C H := ⟨hV, hD, hW1, hr1, hb1, hW2, hr2, hb2⟩
  constructor
  · intro ctx hlen hctx
    have hrows := concatEmbeds_rows hm2 hctx
    refine ⟨forward_eq_spec hm2 hctx, ?_, ?_, ?_, ?_⟩
    · unfold forwardSpec affine
      simp [hW2]
    · unfold affine
      simp [hW1]
    · unfold concatEmbeds
      rw [flatten_length_uniform _ hrows]
      simp [hlen]
    · intro i hi
      have hi2 : i < (ctx.map (fun k => lookupRow m k)).length := by
        simp [hlen]
        omega
      have hi3 : i < ctx.length := by
        omega
      unfold concatEmbeds
      rw [flatten_drop_take _ i hrows hi2, List.getD_eq_getElem _ _ hi2,
        List.getElem_map, List.getD_eq_getElem ctx 0 hi3]
  · intro ctxs h
    refine ⟨forwardBatch_eq hm2 ctxs (fun c hc => (h c hc).2), by simp⟩

/-- Witness for C3 at `tinyModel` (`V = 3`, `D = 2`, `C = 2`, `H = 2`). -/
theorem forward_contract_C3_witness :
    tinyModel.WF 3 2 2 2 ∧
    ((∀ ctx : List Nat, ctx.length = 2 → (∀ k ∈ ctx, k < 3) →
      tinyModel.forward ctx = some (forwardSpec tinyModel ctx) ∧
      (forwardSpec tinyModel ctx).length = 3 ∧
      (affine tinyModel.W1 tinyModel.b1 (concatEmbeds tinyModel ctx)).length = 2 ∧
      (concatEmbeds tinyModel ctx).length = 2 * 2 ∧
      (∀ i, i < 2 →
        ((concatEmbeds tinyModel ctx).drop (i * 2)).take 2 =
          lookupRow tinyModel (ctx.getD i 0))) ∧
    (∀ ctxs : List (List Nat), (∀ ctx ∈ ctxs, ctx.length = 2 ∧ ∀ k ∈ ctx, k < 3) →
      forwardBatch tinyModel ctxs =
        some (ctxs.map (fun ctx => forwardSpec tinyModel ctx)) ∧
      (ctxs.map (fun ctx => forwardSpec tinyModel ctx)).length = ctxs.length)) :=
  ⟨by unfold MLPLM.WF tinyModel ; decide,
    forward_contract_C3 tinyModel 3 2 2 2 (by unfold MLPLM.WF tinyModel ; decide)⟩
